import Mathlib

/-
Verification of the policy-gradient example (examples/reinforcement-learning/main.rs).

Modelling choices:
- Rust f64 rewards are modelled as exact rationals, tensors as lists of
  rationals.
- The gym environment and the stochastic action sampling are modelled as
  explicit parameters (a state machine and a function from observation to
  action), so every theorem quantifies over them.
- The unbounded rollout loop is modelled with explicit fuel returning
  Option: some batch exactly when the source loop breaks within that many
  iterations.
-/

namespace PolicyGradient

/-- One transition record, mirroring struct Step of the source.  The
observation tensor is modelled as a vector of rationals. -/
structure Step where
  obs : List ℚ
  action : ℤ
  reward : ℚ
  is_done : Bool
  deriving DecidableEq

instance : Inhabited Step := ⟨⟨[], 0, 0, false⟩⟩

/-- Mirrors Step::copy_with_obs: same action, reward and done flag, with the
given observation copied in. -/
def Step.copy_with_obs (s : Step) (o : List ℚ) : Step :=
  { obs := o, action := s.action, reward := s.reward, is_done := s.is_done }

/-- Line 114 of the source: the sum of the raw rewards of a batch. -/
def sumRawOf (steps : List Step) : ℚ :=
  (steps.map (fun s => s.reward)).sum

/-- Line 115 of the source: the number of completed episodes of a batch,
summing is_done casts to integers. -/
def episodesOf (steps : List Step) : ℤ :=
  (steps.map (fun s => if s.is_done then (1 : ℤ) else 0)).sum

/-- The memory visible to fn accumulate_rewards: the immutably borrowed
slice of steps, the freshly allocated rewards vector (initialised with the
raw rewards), and the local accumulator variable. -/
structure AccSt where
  steps : List Step
  rewards : List ℚ
  acc_reward : ℚ
  deriving DecidableEq

/-- One iteration of the loop of accumulate_rewards at index i: reset the
accumulator when steps[i].is_done, add the current rewards[i] (still the raw
reward, because the loop runs in reverse), and write the accumulator back to
rewards[i].  Only rewards and acc_reward are written; steps is only read. -/
def accBody (st : AccSt) (i : Nat) : AccSt :=
  let a0 : ℚ := if (st.steps.getD i default).is_done then 0 else st.acc_reward
  let a1 : ℚ := a0 + st.rewards.getD i 0
  { st with acc_reward := a1, rewards := st.rewards.set i a1 }

/-- Runs the loop body for indices n-1, n-2, ..., 0: the source iterates the
enumerated rewards in reverse. -/
def accRunFrom (st : AccSt) : Nat → AccSt
  | 0 => st
  | n + 1 => accRunFrom (accBody st n) n

/-- Translation of fn accumulate_rewards: collect the raw rewards, then run
the reverse loop over all indices.  The whole final memory state is returned
so that theorems can also speak about the borrowed slice. -/
def accumulate_rewards (steps : List Step) : AccSt :=
  accRunFrom
    { steps := steps, rewards := steps.map (fun s => s.reward), acc_reward := 0 }
    steps.length

/-- Structurally recursive form of the reverse accumulation loop: returns
the accumulator value after processing the head together with the rewritten
rewards list. -/
def accLoop : List Step → ℚ × List ℚ
  | [] => (0, [])
  | s :: rest =>
    let p := accLoop rest
    let a : ℚ := (if s.is_done then 0 else p.1) + s.reward
    (a, a :: p.2)

theorem accLoop_cons (s : Step) (t : List Step) :
    accLoop (s :: t)
      = ((if s.is_done then 0 else (accLoop t).1) + s.reward,
         ((if s.is_done then 0 else (accLoop t).1) + s.reward) :: (accLoop t).2) := rfl

theorem getD_append_lt {α : Type} (l l2 : List α) (d : α) :
    ∀ i : Nat, i < l.length → (l ++ l2).getD i d = l.getD i d := by
  induction l with
  | nil => intro i h; exact absurd h (Nat.not_lt_zero i)
  | cons x xs ih =>
    intro i h
    cases i with
    | zero => rfl
    | succ j => simpa using ih j (Nat.lt_of_succ_lt_succ h)

theorem getD_append_len {α : Type} (l l2 : List α) (d : α) :
    (l ++ l2).getD l.length d = l2.getD 0 d := by
  induction l with
  | nil => rfl
  | cons x xs ih => simpa using ih

theorem set_append_len {α : Type} (l l2 : List α) (v : α) :
    (l ++ l2).set l.length v = l ++ l2.set 0 v := by
  induction l with
  | nil => rfl
  | cons x xs ih =>
    show x :: ((xs ++ l2).set xs.length v) = x :: (xs ++ l2.set 0 v)
    rw [ih]

/-- The index based reverse loop agrees with the structural recursion: if
the indices at and beyond the current position already hold the accumulated
values of the suffix, running the loop over the prefix produces the full
accumulated rewards and never writes the steps. -/
theorem accRunFrom_eq_accLoop :
    ∀ pre suf : List Step,
      accRunFrom
        { steps := pre ++ suf,
          rewards := pre.map (fun s => s.reward) ++ (accLoop suf).2,
          acc_reward := (accLoop suf).1 }
        pre.length
      = { steps := pre ++ suf, rewards := (accLoop (pre ++ suf)).2,
          acc_reward := (accLoop (pre ++ suf)).1 } := by
  intro pre
  induction pre using List.reverseRecOn with
  | nil => intro suf; simp [accRunFrom]
  | append_singleton q a ih =>
    intro suf
    have hlen : (q ++ [a]).length = q.length + 1 := by simp
    rw [hlen]
    show accRunFrom
        (accBody
          { steps := (q ++ [a]) ++ suf,
            rewards := (q ++ [a]).map (fun s => s.reward) ++ (accLoop suf).2,
            acc_reward := (accLoop suf).1 } q.length) q.length = _
    have hsteps : (q ++ [a]) ++ suf = q ++ (a :: suf) := by simp
    have hrew :
        (q ++ [a]).map (fun s => s.reward) ++ (accLoop suf).2
          = q.map (fun s => s.reward) ++ (a.reward :: (accLoop suf).2) := by
      simp
    have h1 : (q ++ (a :: suf)).getD q.length default = a :=
      getD_append_len q (a :: suf) default
    have h2 :
        (q.map (fun s => s.reward) ++ (a.reward :: (accLoop suf).2)).getD q.length 0
          = a.reward := by
      simpa using
        getD_append_len (q.map (fun s => s.reward)) (a.reward :: (accLoop suf).2) 0
    have h3 :
        (q.map (fun s => s.reward) ++ (a.reward :: (accLoop suf).2)).set q.length
            ((if a.is_done then 0 else (accLoop suf).1) + a.reward)
          = q.map (fun s => s.reward)
              ++ (((if a.is_done then 0 else (accLoop suf).1) + a.reward)
                    :: (accLoop suf).2) := by
      simpa using
        set_append_len (q.map (fun s => s.reward)) (a.reward :: (accLoop suf).2)
          ((if a.is_done then 0 else (accLoop suf).1) + a.reward)
    have hbody :
        accBody
          { steps := (q ++ [a]) ++ suf,
            rewards := (q ++ [a]).map (fun s => s.reward) ++ (accLoop suf).2,
            acc_reward := (accLoop suf).1 } q.length
        = { steps := q ++ (a :: suf),
            rewards := q.map (fun s => s.reward) ++ (accLoop (a :: suf)).2,
            acc_reward := (accLoop (a :: suf)).1 } := by
      simp only [accBody, hsteps, hrew, h1, h2]
      rw [h3]
      simp [accLoop_cons]
    rw [hbody, ih (a :: suf)]
    have hsteps2 : q ++ (a :: suf) = (q ++ [a]) ++ suf := by simp
    rw [hsteps2]

theorem accumulate_rewards_eq (steps : List Step) :
    accumulate_rewards steps
      = { steps := steps, rewards := (accLoop steps).2,
          acc_reward := (accLoop steps).1 } := by
  have h := accRunFrom_eq_accLoop steps []
  simpa [accumulate_rewards, accLoop] using h

theorem accLoop_length (l : List Step) : (accLoop l).2.length = l.length := by
  induction l with
  | nil => rfl
  | cons s r ih => simp [accLoop, ih]

theorem accLoop_fst (l : List Step) : (accLoop l).1 = (accLoop l).2.getD 0 0 := by
  cases l with
  | nil => rfl
  | cons s r => simp [accLoop]

theorem accLoop_getD (l : List Step) :
    ∀ i : Nat, i < l.length →
      (accLoop l).2.getD i 0
        = (if (l.getD i default).is_done then 0 else (accLoop l).2.getD (i + 1) 0)
          + (l.getD i default).reward := by
  induction l with
  | nil => intro i h; exact absurd h (Nat.not_lt_zero i)
  | cons s r ih =>
    intro i h
    cases i with
    | zero =>
      simp only [accLoop, List.getD_cons_zero, List.getD_cons_succ]
      rw [← accLoop_fst r]
    | succ j =>
      have hj : j < r.length := Nat.lt_of_succ_lt_succ h
      simpa [accLoop] using ih j hj

theorem accumulate_rewards_rewards (steps : List Step) :
    (accumulate_rewards steps).rewards = (accLoop steps).2 := by
  rw [accumulate_rewards_eq]

theorem accumulate_rewards_length (steps : List Step) :
    (accumulate_rewards steps).rewards.length = steps.length := by
  rw [accumulate_rewards_rewards]; exact accLoop_length steps

/-- True when the last step of the list exists and carries done = true. -/
def lastDone (l : List Step) : Bool :=
  match l.getLast? with
  | some s => s.is_done
  | none => false

/-- The accumulation never leaks across an episode boundary: when the first
block ends in a done step, accumulating over the concatenation is the
concatenation of the independent accumulations. -/
theorem accLoop_append_of_lastDone :
    ∀ xs ys : List Step, lastDone xs = true →
      accLoop (xs ++ ys) = ((accLoop xs).1, (accLoop xs).2 ++ (accLoop ys).2) := by
  intro xs
  induction xs with
  | nil => intro ys h; exact absurd h (by simp [lastDone])
  | cons x xs ih =>
    intro ys h
    cases xs with
    | nil =>
      have hx : x.is_done = true := by simpa [lastDone] using h
      simp [accLoop, hx]
    | cons y ys2 =>
      have h2 : lastDone (y :: ys2) = true := by
        simpa [lastDone, List.getLast?_cons_cons] using h
      have hih := ih ys h2
      rw [List.cons_append, accLoop_cons, hih, accLoop_cons x (y :: ys2),
        accLoop_cons y ys2]
      simp

/-- The worked example of the specification: rewards 1, 2, 5, 3 with done
flags false, true, false, true. -/
def batch7 : List Step :=
  [{ obs := [], action := 0, reward := 1, is_done := false },
   { obs := [], action := 0, reward := 2, is_done := true },
   { obs := [], action := 0, reward := 5, is_done := false },
   { obs := [], action := 0, reward := 3, is_done := true }]

/-- C7: on the concrete four-step batch with (reward, done) pairs (1,false),
(2,true), (5,false), (3,true), accumulate_rewards returns exactly the
sequence [3, 2, 8, 3]. -/
theorem c7_concrete_example :
    (accumulate_rewards batch7).rewards = [3, 2, 8, 3] := by
  rw [accumulate_rewards_rewards]
  norm_num [batch7, accLoop]

/-- C10: accumulate_rewards leaves the batch itself unchanged, every field of
every Step included, and emits the reward-to-go values in a separate,
equally long sequence instead of rewriting the reward fields in place. -/
theorem c10_batch_unchanged :
    ∀ steps : List Step,
      (accumulate_rewards steps).steps = steps ∧
      (accumulate_rewards steps).rewards.length = steps.length := by
  intro steps
  rw [accumulate_rewards_eq]
  exact ⟨rfl, by simpa using accLoop_length steps⟩

theorem c1_aux (steps : List Step) (j : Nat) (hj : j < steps.length)
    (hdj : (steps.getD j default).is_done = true) :
    ∀ n i : Nat, j - i = n → i ≤ j →
      (∀ k : Nat, i ≤ k → k < j → (steps.getD k default).is_done = false) →
      (accLoop steps).2.getD i 0
        = Finset.sum (Finset.Icc i j) (fun k => (steps.getD k default).reward) := by
  intro n
  induction n with
  | zero =>
    intro i hn hij hbet
    have hij2 : i = j := by omega
    subst hij2
    rw [accLoop_getD steps i hj, hdj]
    simp
  | succ n ih =>
    intro i hn hij hbet
    have hilt : i < j := by omega
    have hdi : (steps.getD i default).is_done = false := hbet i (le_refl i) hilt
    rw [accLoop_getD steps i (by omega), hdi]
    have hsum := ih (i + 1) (by omega) (by omega)
      (fun k hk1 hk2 => hbet k (by omega) hk2)
    rw [hsum]
    rw [← Finset.Ioc_insert_left (le_of_lt hilt),
      Finset.sum_insert Finset.left_not_mem_Ioc, ← Nat.Icc_succ_left]
    simp [add_comm]

/-- C1: accumulate_rewards returns a sequence of the same length and order
as the batch, and the value at index i equals the sum of the raw rewards
from step i up to and including the next step with done = true; rewards of
later episodes never contribute, and at the first step of an episode the
value is the whole episode reward sum. -/
theorem c1_reward_to_go_correct :
    ∀ steps : List Step,
      (accumulate_rewards steps).rewards.length = steps.length ∧
      ∀ i j : Nat, i ≤ j → j < steps.length →
        (steps.getD j default).is_done = true →
        (∀ k : Nat, i ≤ k → k < j → (steps.getD k default).is_done = false) →
        (accumulate_rewards steps).rewards.getD i 0
          = Finset.sum (Finset.Icc i j) (fun k => (steps.getD k default).reward) := by
  intro steps
  refine ⟨accumulate_rewards_length steps, ?_⟩
  intro i j hij hj hdj hbet
  rw [accumulate_rewards_rewards]
  exact c1_aux steps j hj hdj (j - i) i rfl hij hbet

theorem c1_witness :
    (accumulate_rewards batch7).rewards.length = batch7.length ∧
    (accumulate_rewards batch7).rewards.getD 0 0
      = Finset.sum (Finset.Icc 0 1) (fun k => (batch7.getD k default).reward) := by
  refine ⟨(c1_reward_to_go_correct batch7).1,
    (c1_reward_to_go_correct batch7).2 0 1 (by decide) (by decide) (by decide) ?_⟩
  intro k hk1 hk2
  have hk : k = 0 := by omega
  subst hk
  decide

/-- C6: within an episode the reward-to-go values satisfy
rtg[i] - rtg[i+1] = raw reward[i], and the accumulation resets independently
per episode: over a concatenation whose first block ends in done = true, the
result is the concatenation of the independent results (no leakage). -/
theorem c6_difference_and_reset :
    (∀ (steps : List Step) (i : Nat), i + 1 < steps.length →
        (steps.getD i default).is_done = false →
        (accumulate_rewards steps).rewards.getD i 0
            - (accumulate_rewards steps).rewards.getD (i + 1) 0
          = (steps.getD i default).reward) ∧
    (∀ xs ys : List Step, lastDone xs = true →
        (accumulate_rewards (xs ++ ys)).rewards
          = (accumulate_rewards xs).rewards ++ (accumulate_rewards ys).rewards) := by
  constructor
  · intro steps i h hdi
    rw [accumulate_rewards_rewards]
    rw [accLoop_getD steps i (by omega), hdi]
    simp
  · intro xs ys h
    simp only [accumulate_rewards_rewards]
    rw [accLoop_append_of_lastDone xs ys h]

/-- First episode of the worked example, rewards 1 then 2. -/
def ep1 : List Step :=
  [{ obs := [], action := 0, reward := 1, is_done := false },
   { obs := [], action := 0, reward := 2, is_done := true }]

/-- Second episode of the worked example, rewards 5 then 3. -/
def ep2 : List Step :=
  [{ obs := [], action := 0, reward := 5, is_done := false },
   { obs := [], action := 0, reward := 3, is_done := true }]

theorem c6_witness :
    (accumulate_rewards batch7).rewards.getD 0 0
        - (accumulate_rewards batch7).rewards.getD 1 0
      = (batch7.getD 0 default).reward ∧
    (accumulate_rewards (ep1 ++ ep2)).rewards
      = (accumulate_rewards ep1).rewards ++ (accumulate_rewards ep2).rewards :=
  ⟨c6_difference_and_reset.1 batch7 0 (by decide) (by decide),
   c6_difference_and_reset.2 ep1 ep2 (by decide)⟩

/-- The environment as seen from the rollout loop (struct GymEnv of the
source): reset returns the post-reset environment state and the initial
observation; step takes an action and returns the new environment state and
the produced Step record (post-step observation, reward, done flag, and the
action echoed back). -/
structure GymEnv (σ : Type) where
  reset : σ → σ × List ℚ
  step : σ → ℤ → σ × Step

/-- The rollout loop of fn main (lines 99 to 113), with the action
computation (model, softmax, multinomial) abstracted into a policy function
from observation to action, and explicit fuel standing for the number of
loop iterations still allowed; none models a loop that has not terminated
within the fuel.  minBatch is the configured minimum batch size, 5000 in the
source.  Each iteration pushes the step with the pre-step observation, then
resets the environment when the step ended the episode, then breaks exactly
when the step is done and the accumulated length strictly exceeds
minBatch. -/
def rolloutAux {σ : Type} (E : GymEnv σ) (pol : List ℚ → ℤ) (minBatch : Nat) :
    Nat → σ → List ℚ → List Step → Option (List Step)
  | 0, _, _, _ => none
  | fuel + 1, s, o, steps =>
    let acted := E.step s (pol o)
    let steps2 := steps ++ [acted.2.copy_with_obs o]
    let nxt := if acted.2.is_done then E.reset acted.1 else (acted.1, acted.2.obs)
    if acted.2.is_done = true ∧ minBatch < steps2.length then some steps2
    else rolloutAux E pol minBatch fuel nxt.1 nxt.2 steps2

/-- Lines 96 to 113 of fn main: reset the environment, then run the rollout
loop starting from an empty batch. -/
def rollout {σ : Type} (E : GymEnv σ) (pol : List ℚ → ℤ) (minBatch fuel : Nat)
    (s0 : σ) : Option (List Step) :=
  let init := E.reset s0
  rolloutAux E pol minBatch fuel init.1 init.2 []

/-- The configured minimum batch size of the source (the literal compared
against steps.len() on line 110). -/
def min_batch_size : Nat := 5000

theorem getLastD_concat {α : Type} (a : α) :
    ∀ (l : List α) (d : α), (l ++ [a]).getLastD d = a := by
  intro l
  induction l with
  | nil => intro d; rfl
  | cons x xs ih => intro d; simpa [List.getLastD] using ih x

theorem copy_with_obs_is_done (s : Step) (o : List ℚ) :
    (s.copy_with_obs o).is_done = s.is_done := rfl

/-- Main invariant of the rollout loop: when the loop terminates with a
batch, the batch is strictly longer than the configured minimum, its last
step carries done = true, it contains at least one done step, and every
non-final done step was recorded while the accumulated length was still at
most the minimum (the loop kept going there). -/
theorem rolloutAux_spec {σ : Type} (E : GymEnv σ) (pol : List ℚ → ℤ) (m : Nat) :
    ∀ (fuel : Nat) (s : σ) (o : List ℚ) (steps batch : List Step),
      rolloutAux E pol m fuel s o steps = some batch →
      (∀ i : Nat, i < steps.length → (steps.getD i default).is_done = true →
        i + 1 ≤ m) →
      m < batch.length ∧ (batch.getLastD default).is_done = true ∧
        1 ≤ batch.countP (fun s2 => s2.is_done) ∧
        ∀ i : Nat, i + 1 < batch.length →
          (batch.getD i default).is_done = true → i + 1 ≤ m := by
  intro fuel
  induction fuel with
  | zero => intro s o steps batch h hinv; simp [rolloutAux] at h
  | succ f ih =>
    intro s o steps batch h hinv
    simp only [rolloutAux] at h
    split at h
    case isTrue hc =>
      have hb : batch = steps ++ [(E.step s (pol o)).2.copy_with_obs o] :=
        (Option.some.inj h).symm
      subst hb
      have hlen : (steps ++ [(E.step s (pol o)).2.copy_with_obs o]).length
          = steps.length + 1 := by simp
      refine ⟨by simpa [hlen] using hc.2, ?_, ?_, ?_⟩
      · rw [getLastD_concat]
        rw [copy_with_obs_is_done]
        exact hc.1
      · have : ((E.step s (pol o)).2.copy_with_obs o).is_done = true := by
          rw [copy_with_obs_is_done]; exact hc.1
        simp [List.countP_append, List.countP_cons, this]
      · intro i hi hdone
        rw [hlen] at hi
        have hilt : i < steps.length := by omega
        rw [getD_append_lt steps _ default i hilt] at hdone
        exact hinv i hilt hdone
    case isFalse hc =>
      refine ih _ _ _ batch h ?_
      intro i hi hdone
      have hlen : (steps ++ [(E.step s (pol o)).2.copy_with_obs o]).length
          = steps.length + 1 := by simp
      rw [hlen] at hi
      rcases Nat.lt_or_ge i steps.length with hilt | hige
      · rw [getD_append_lt steps _ default i hilt] at hdone
        exact hinv i hilt hdone
      · have hieq : i = steps.length := by omega
        subst hieq
        rw [getD_append_len] at hdone
        simp only [List.getD_cons_zero, copy_with_obs_is_done] at hdone
        have : ¬ m < steps.length + 1 := fun hlt => hc ⟨hdone, by simpa using hlt⟩
        omega

/-- C3: every batch returned by the rollout loop is non-empty and its last
step has done = true; the loop never terminates mid-episode, even when the
batch exceeds the configured minimum size. -/
theorem c3_batch_ends_on_episode_boundary :
    ∀ (σ : Type) (E : GymEnv σ) (pol : List ℚ → ℤ) (m fuel : Nat) (s0 : σ)
      (batch : List Step),
      rollout E pol m fuel s0 = some batch →
      batch ≠ [] ∧ (batch.getLastD default).is_done = true := by
  intro σ E pol m fuel s0 batch h
  simp only [rollout] at h
  have h2 := rolloutAux_spec E pol m fuel _ _ [] batch h
    (by intro i hi; simp at hi)
  refine ⟨?_, h2.2.1⟩
  have hpos : 0 < batch.length := by omega
  exact List.length_pos.mp hpos

/-- C2 (amended): characterisation of the stopping rule the code implements:
a returned batch is strictly longer than the configured minimum, ends in a
done step, and every earlier done step was recorded at a length of at most
the minimum, so at a done step whose batch length equals the minimum exactly
the loop resets and continues instead of stopping. -/
theorem c2_amended_stop_rule :
    ∀ (σ : Type) (E : GymEnv σ) (pol : List ℚ → ℤ) (m fuel : Nat) (s0 : σ)
      (batch : List Step),
      rollout E pol m fuel s0 = some batch →
      m < batch.length ∧ (batch.getLastD default).is_done = true ∧
        ∀ i : Nat, i + 1 < batch.length →
          (batch.getD i default).is_done = true → i + 1 ≤ m := by
  intro σ E pol m fuel s0 batch h
  simp only [rollout] at h
  have h2 := rolloutAux_spec E pol m fuel _ _ [] batch h
    (by intro i hi; simp at hi)
  exact ⟨h2.1, h2.2.1, h2.2.2.2⟩

theorem episodesOf_eq_countP (l : List Step) :
    episodesOf l = (l.countP (fun s => s.is_done) : ℤ) := by
  induction l with
  | nil => rfl
  | cons s r ih =>
    have hstep : episodesOf (s :: r)
        = (if s.is_done then (1 : ℤ) else 0) + episodesOf r := by
      simp [episodesOf]
    rw [hstep, ih, List.countP_cons]
    cases h : s.is_done
    · simp [h]
    · simp [h]
      omega

/-- C8: for every configured minimum batch size, zero included, a returned
batch is never empty and contains at least one completed episode, so the
episode count used as divisor by the epoch driver is at least one. -/
theorem c8_at_least_one_episode :
    ∀ (σ : Type) (E : GymEnv σ) (pol : List ℚ → ℤ) (m fuel : Nat) (s0 : σ)
      (batch : List Step),
      rollout E pol m fuel s0 = some batch →
      batch ≠ [] ∧ 1 ≤ batch.countP (fun s => s.is_done) ∧
        1 ≤ episodesOf batch := by
  intro σ E pol m fuel s0 batch h
  simp only [rollout] at h
  have h2 := rolloutAux_spec E pol m fuel _ _ [] batch h
    (by intro i hi; simp at hi)
  refine ⟨?_, h2.2.2.1, ?_⟩
  · have hpos : 0 < batch.length := by omega
    exact List.length_pos.mp hpos
  · rw [episodesOf_eq_countP]
    exact_mod_cast h2.2.2.1

/-- A step that always ends its episode immediately, with reward one. -/
def cStep : Step := { obs := [], action := 0, reward := 1, is_done := true }

/-- A concrete environment whose every step ends the episode with reward
one. -/
def cEnv : GymEnv Unit :=
  { reset := fun _ => ((), [])
  , step := fun _ a =>
      ((), { obs := [], action := a, reward := 1, is_done := true }) }

/-- A concrete policy that always picks action zero. -/
def cPol : List ℚ → ℤ := fun _ => 0

/-- C2 counterexample: with configured minimum 1 the first episode ends when
the accumulated batch holds exactly 1 step, which equals the minimum; the
claimed rule would stop there and return the one step batch, but the code
only breaks on a strictly greater length, resets, and returns a two step
batch. -/
theorem c2_counterexample :
    rollout cEnv cPol 1 3 () = some [cStep, cStep] ∧
      cStep.is_done = true ∧
      rollout cEnv cPol 1 3 () ≠ some [cStep] := by decide

theorem c2_witness :
    1 < ([cStep, cStep] : List Step).length ∧
      (([cStep, cStep] : List Step).getLastD default).is_done = true := by
  have h := c2_amended_stop_rule Unit cEnv cPol 1 3 () [cStep, cStep] (by decide)
  exact ⟨h.1, h.2.1⟩

theorem c3_witness :
    ([cStep] : List Step) ≠ [] ∧
      (([cStep] : List Step).getLastD default).is_done = true :=
  c3_batch_ends_on_episode_boundary Unit cEnv cPol 0 1 () [cStep] (by decide)

theorem c8_witness :
    ([cStep] : List Step) ≠ [] ∧
      1 ≤ ([cStep] : List Step).countP (fun s => s.is_done) ∧
      1 ≤ episodesOf [cStep] :=
  c8_at_least_one_episode Unit cEnv cPol 0 1 () [cStep] (by decide)

/-- Modelled from the spec: Tensor::zeros for a two dimensional shape, an
n by a matrix of zeros (the tensor library itself is not part of the
example source). -/
def tzeros (n a : Nat) : List (List ℚ) :=
  List.replicate n (List.replicate a 0)

/-- Modelled from the spec: in place scatter_ along dimension 1 with an
n by 1 integer index column and a scalar source value: row i of the result
is row i of the input with the entry at column idx[i] overwritten by src. -/
def scatterDim1 (m : List (List ℚ)) (idx : List ℤ) (src : ℚ) : List (List ℚ) :=
  List.zipWith (fun row ai => row.set ai.toNat src) m idx

/-- Modelled from the spec: elementwise product of two matrices. -/
def hadamard (x y : List (List ℚ)) : List (List ℚ) :=
  List.zipWith (List.zipWith (fun p q => p * q)) x y

/-- Modelled from the spec: sum2 over dimension 1 without keepdim, the
vector of row sums. -/
def sumDim1 (x : List (List ℚ)) : List ℚ :=
  x.map List.sum

/-- Modelled from the spec: elementwise product of two vectors. -/
def zipMul (x y : List ℚ) : List ℚ :=
  List.zipWith (fun p q => p * q) x y

/-- Modelled from the spec: mean of a vector. -/
def tmean (x : List ℚ) : ℚ :=
  x.sum / (x.length : ℚ)

/-- Lines 125 to 132 of the source: the action mask of a batch, a zero
matrix with batch many rows and 2 columns scattered with ones at the
recorded action of each step. -/
def action_mask_of (steps : List Step) : List (List ℚ) :=
  scatterDim1 (tzeros steps.length 2) (steps.map (fun s => s.action)) 1

/-- Lines 133 to 136 of the source: recompute the logits on the stored
observations, apply log softmax per row, select the taken action via the
mask (elementwise product and row sum), weight by the reward-to-go values
and negate the mean.  fwd stands for the policy network applied to one
observation and lsm for log softmax applied to one row; both are parameters
because the network weights and the transcendental functions live outside
this model. -/
def loss_of (fwd lsm : List ℚ → List ℚ) (steps : List Step)
    (rewards : List ℚ) : ℚ :=
  - tmean (zipMul rewards
      (sumDim1 (hadamard (action_mask_of steps)
        ((steps.map (fun s => fwd s.obs)).map lsm))))

theorem getD_map_of_lt {α β : Type} (f : α → β) (dα : α) (dβ : β) :
    ∀ (l : List α) (i : Nat), i < l.length →
      (l.map f).getD i dβ = f (l.getD i dα) := by
  intro l
  induction l with
  | nil => intro i h; exact absurd h (Nat.not_lt_zero i)
  | cons x xs ih =>
    intro i h
    cases i with
    | zero => rfl
    | succ j => simpa using ih j (Nat.lt_of_succ_lt_succ h)

theorem getD_zipWith_of_lt {α β γ : Type} (f : α → β → γ) (d1 : α) (d2 : β)
    (d3 : γ) :
    ∀ (l1 : List α) (l2 : List β) (i : Nat), i < l1.length → i < l2.length →
      (List.zipWith f l1 l2).getD i d3 = f (l1.getD i d1) (l2.getD i d2) := by
  intro l1
  induction l1 with
  | nil => intro l2 i h1 h2; exact absurd h1 (Nat.not_lt_zero i)
  | cons x xs ih =>
    intro l2 i h1 h2
    cases l2 with
    | nil => exact absurd h2 (Nat.not_lt_zero i)
    | cons y ys =>
      cases i with
      | zero => rfl
      | succ j =>
        simpa using ih ys j (Nat.lt_of_succ_lt_succ h1) (Nat.lt_of_succ_lt_succ h2)

theorem getD_replicate_of_lt {α : Type} (x d : α) :
    ∀ n i : Nat, i < n → (List.replicate n x).getD i d = x := by
  intro n
  induction n with
  | zero => intro i h; exact absurd h (Nat.not_lt_zero i)
  | succ m ih =>
    intro i h
    cases i with
    | zero => rfl
    | succ j =>
      rw [List.replicate_succ, List.getD_cons_succ]
      exact ih j (Nat.lt_of_succ_lt_succ h)

theorem getD_mem_of_lt {α : Type} (d : α) :
    ∀ (l : List α) (i : Nat), i < l.length → l.getD i d ∈ l := by
  intro l
  induction l with
  | nil => intro i h; exact absurd h (Nat.not_lt_zero i)
  | cons x xs ih =>
    intro i h
    cases i with
    | zero => simp
    | succ j =>
      have := ih j (Nat.lt_of_succ_lt_succ h)
      simp only [List.getD_cons_succ]
      exact List.mem_cons_of_mem x this

theorem sum_zipMul_eq (u : List ℚ) :
    ∀ v : List ℚ, u.length = v.length →
      (zipMul u v).sum
        = Finset.sum (Finset.range u.length)
            (fun i => u.getD i 0 * v.getD i 0) := by
  induction u with
  | nil => intro v h; simp [zipMul]
  | cons x xs ih =>
    intro v h
    cases v with
    | nil => simp at h
    | cons y ys =>
      have h2 : xs.length = ys.length := by simpa using h
      have hcons : zipMul (x :: xs) (y :: ys) = (x * y) :: zipMul xs ys := rfl
      rw [hcons, List.sum_cons, ih ys h2]
      rw [List.length_cons, Finset.sum_range_succ']
      simp [add_comm]

theorem one_hot_row (a : ℤ) (h0 : 0 ≤ a) (h2 : a < 2) :
    (List.replicate 2 (0 : ℚ)).set a.toNat 1
      = [if a = 0 then 1 else 0, if a = 1 then 1 else 0] := by
  have ha : a = 0 ∨ a = 1 := by omega
  rcases ha with h | h <;> subst h <;> decide

theorem one_hot_select (a : ℤ) (h0 : 0 ≤ a) (h2 : a < 2) (L : List ℚ)
    (hL : L.length = 2) :
    (List.zipWith (fun p q => p * q)
        ((List.replicate 2 (0 : ℚ)).set a.toNat 1) L).sum
      = L.getD a.toNat 0 := by
  obtain ⟨x, y, rfl⟩ := List.length_eq_two.mp hL
  have ha : a = 0 ∨ a = 1 := by omega
  rcases ha with h | h <;> subst h <;> simp

/-- C5: the action mask is a matrix with one row per step and 2 columns,
each row one-hot at the recorded action of its step, and the loss of the
update step equals the negative mean over the batch of reward-to-go times
the log softmax value of the logits of that step at its recorded action,
for any policy network fwd (rows of 2 logits) and any shape preserving row
transform lsm standing for log softmax. -/
theorem c5_mask_and_loss :
    ∀ (steps : List Step) (fwd lsm : List ℚ → List ℚ),
      (∀ s, s ∈ steps → 0 ≤ s.action ∧ s.action < 2) →
      (∀ o, (fwd o).length = 2) →
      (∀ v, (lsm v).length = v.length) →
      (action_mask_of steps).length = steps.length ∧
      (∀ i : Nat, i < steps.length →
        (action_mask_of steps).getD i []
          = [if (steps.getD i default).action = 0 then 1 else 0,
             if (steps.getD i default).action = 1 then 1 else 0]) ∧
      loss_of fwd lsm steps (accumulate_rewards steps).rewards
        = - Finset.sum (Finset.range steps.length)
              (fun i => (accumulate_rewards steps).rewards.getD i 0
                * (lsm (fwd (steps.getD i default).obs)).getD
                    (steps.getD i default).action.toNat 0)
            / (steps.length : ℚ) := by
  intro steps fwd lsm hact hf hl
  have hzl : (tzeros steps.length 2).length = steps.length := by simp [tzeros]
  have hml : (steps.map (fun s => s.action)).length = steps.length := by simp
  have hmaskl : (action_mask_of steps).length = steps.length := by
    simp [action_mask_of, scatterDim1, tzeros]
  have hrow : ∀ i : Nat, i < steps.length →
      (action_mask_of steps).getD i []
        = (List.replicate 2 (0 : ℚ)).set (steps.getD i default).action.toNat 1 := by
    intro i hi
    have h1 := getD_zipWith_of_lt (fun row ai => row.set ai.toNat (1 : ℚ))
      [] 0 [] (tzeros steps.length 2) (steps.map (fun s => s.action)) i
      (by rw [hzl]; exact hi) (by rw [hml]; exact hi)
    have h2 : (tzeros steps.length 2).getD i [] = List.replicate 2 (0 : ℚ) := by
      simp only [tzeros]
      exact getD_replicate_of_lt (List.replicate 2 (0 : ℚ)) [] steps.length i hi
    have h3 : (steps.map (fun s => s.action)).getD i 0
        = (steps.getD i default).action :=
      getD_map_of_lt (fun s => s.action) default 0 steps i hi
    simp only [action_mask_of, scatterDim1]
    rw [h1, h2, h3]
  have hmaskrow : ∀ i : Nat, i < steps.length →
      (action_mask_of steps).getD i []
        = [if (steps.getD i default).action = 0 then 1 else 0,
           if (steps.getD i default).action = 1 then 1 else 0] := by
    intro i hi
    rw [hrow i hi]
    have ha := hact _ (getD_mem_of_lt default steps i hi)
    exact one_hot_row _ ha.1 ha.2
  refine ⟨hmaskl, hmaskrow, ?_⟩
  have hR : (accumulate_rewards steps).rewards.length = steps.length :=
    accumulate_rewards_length steps
  have hLs2 : ((steps.map (fun s => fwd s.obs)).map lsm).length
      = steps.length := by simp
  have hHl : (hadamard (action_mask_of steps)
      ((steps.map (fun s => fwd s.obs)).map lsm)).length = steps.length := by
    simp only [hadamard, List.length_zipWith]
    rw [hmaskl, hLs2]
    exact Nat.min_self _
  have hPl : (sumDim1 (hadamard (action_mask_of steps)
      ((steps.map (fun s => fwd s.obs)).map lsm))).length = steps.length := by
    simp only [sumDim1, List.length_map]
    exact hHl
  have hzml : (zipMul (accumulate_rewards steps).rewards
      (sumDim1 (hadamard (action_mask_of steps)
        ((steps.map (fun s => fwd s.obs)).map lsm)))).length = steps.length := by
    simp only [zipMul, List.length_zipWith]
    rw [hR, hPl]
    exact Nat.min_self _
  have hsum := sum_zipMul_eq (accumulate_rewards steps).rewards
    (sumDim1 (hadamard (action_mask_of steps)
      ((steps.map (fun s => fwd s.obs)).map lsm)))
    (by rw [hR, hPl])
  have hpoint : ∀ i ∈ Finset.range steps.length,
      (accumulate_rewards steps).rewards.getD i 0
          * (sumDim1 (hadamard (action_mask_of steps)
              ((steps.map (fun s => fwd s.obs)).map lsm))).getD i 0
        = (accumulate_rewards steps).rewards.getD i 0
            * (lsm (fwd (steps.getD i default).obs)).getD
                (steps.getD i default).action.toNat 0 := by
    intro i hmem
    have hi : i < steps.length := Finset.mem_range.mp hmem
    have ha := hact _ (getD_mem_of_lt default steps i hi)
    have hP1 : (sumDim1 (hadamard (action_mask_of steps)
        ((steps.map (fun s => fwd s.obs)).map lsm))).getD i 0
        = List.sum ((hadamard (action_mask_of steps)
            ((steps.map (fun s => fwd s.obs)).map lsm)).getD i []) := by
      simp only [sumDim1]
      exact getD_map_of_lt List.sum [] 0 _ i (by rw [hHl]; exact hi)
    have hH1 : (hadamard (action_mask_of steps)
        ((steps.map (fun s => fwd s.obs)).map lsm)).getD i []
        = List.zipWith (fun p q => p * q)
            ((action_mask_of steps).getD i [])
            (((steps.map (fun s => fwd s.obs)).map lsm).getD i []) := by
      simp only [hadamard]
      exact getD_zipWith_of_lt (List.zipWith (fun p q => p * q)) [] [] [] _ _ i
        (by rw [hmaskl]; exact hi) (by rw [hLs2]; exact hi)
    have hLrow : ((steps.map (fun s => fwd s.obs)).map lsm).getD i []
        = lsm (fwd (steps.getD i default).obs) := by
      rw [getD_map_of_lt lsm [] [] (steps.map (fun s => fwd s.obs)) i
        (by simpa using hi)]
      rw [getD_map_of_lt (fun s => fwd s.obs) default [] steps i hi]
    have hLlen : (lsm (fwd (steps.getD i default).obs)).length = 2 := by
      rw [hl, hf]
    rw [hP1, hH1, hrow i hi, hLrow]
    rw [one_hot_select _ ha.1 ha.2 _ hLlen]
  have hfinal : (zipMul (accumulate_rewards steps).rewards
      (sumDim1 (hadamard (action_mask_of steps)
        ((steps.map (fun s => fwd s.obs)).map lsm)))).sum
      = Finset.sum (Finset.range steps.length)
          (fun i => (accumulate_rewards steps).rewards.getD i 0
            * (lsm (fwd (steps.getD i default).obs)).getD
                (steps.getD i default).action.toNat 0) := by
    rw [hsum, hR]
    exact Finset.sum_congr rfl hpoint
  simp only [loss_of, tmean]
  rw [hfinal, hzml, neg_div]

/-- A policy network stub returning two zero logits for any observation. -/
def cFwd : List ℚ → List ℚ := fun _ => [0, 0]

/-- A row transform stub (identity), standing for log softmax. -/
def cLsm : List ℚ → List ℚ := fun v => v

theorem c5_witness :
    (action_mask_of [cStep]).length = ([cStep] : List Step).length ∧
    loss_of cFwd cLsm [cStep] (accumulate_rewards [cStep]).rewards
      = - Finset.sum (Finset.range ([cStep] : List Step).length)
            (fun i => (accumulate_rewards [cStep]).rewards.getD i 0
              * (cLsm (cFwd (([cStep] : List Step).getD i default).obs)).getD
                  (([cStep] : List Step).getD i default).action.toNat 0)
          / (([cStep] : List Step).length : ℚ) := by
  have h := c5_mask_and_loss [cStep] cFwd cLsm (by decide) (fun o => rfl)
    (fun v => rfl)
  exact ⟨h.1, h.2.2⟩

/-- The externally visible phases of one epoch body, in the order the code
performs them: the rollout loop, the statistics line printed to standard
output, the reward-to-go computation, and the optimizer update. -/
inductive Ev
  | collect
  | report
  | rtg
  | update
  deriving DecidableEq

/-- Everything one epoch produces: the collected batch, the reported episode
count and average reward, the reward-to-go values, the action mask and loss
of the update, and the ordered trace of phases. -/
structure EpochOut where
  idx : Nat
  batch : List Step
  episodes : ℤ
  avg : ℚ
  rtg : List ℚ
  mask : List (List ℚ)
  loss : ℚ
  events : List Ev
  deriving DecidableEq

instance : Inhabited EpochOut := ⟨⟨0, [], 0, 0, [], [], 0, []⟩⟩

/-- One iteration of the epoch loop of fn main (lines 95 to 138), in source
statement order: run the rollout loop; compute sum_r and episodes and print
the statistics line; compute the reward-to-go values; build the mask and the
loss and take the optimizer step.  The event list grows at each phase in
that order.  none models an epoch whose rollout loop did not terminate
within the fuel. -/
def runEpoch {σ : Type} (E : GymEnv σ) (pol : List ℚ → ℤ)
    (fwd lsm : List ℚ → List ℚ) (idx m fuel : Nat) (s0 : σ) :
    Option EpochOut :=
  match rollout E pol m fuel s0 with
  | none => none
  | some steps =>
    let ev1 : List Ev := [Ev.collect]
    let sum_r : ℚ := sumRawOf steps
    let episodes : ℤ := episodesOf steps
    let avg : ℚ := sum_r / (episodes : ℚ)
    let ev2 : List Ev := ev1 ++ [Ev.report]
    let rewards : List ℚ := (accumulate_rewards steps).rewards
    let ev3 : List Ev := ev2 ++ [Ev.rtg]
    let mask : List (List ℚ) := action_mask_of steps
    let loss : ℚ := loss_of fwd lsm steps rewards
    let ev4 : List Ev := ev3 ++ [Ev.update]
    some { idx := idx, batch := steps, episodes := episodes, avg := avg,
           rtg := rewards, mask := mask, loss := loss, events := ev4 }

/-- C4: the average reward per episode reported by the epoch driver equals
the sum of the raw rewards over the batch divided by the number of steps of
the batch whose done flag is true. -/
theorem c4_avg_reward_formula :
    ∀ (σ : Type) (E : GymEnv σ) (pol : List ℚ → ℤ)
      (fwd lsm : List ℚ → List ℚ) (idx m fuel : Nat) (s0 : σ)
      (out : EpochOut),
      runEpoch E pol fwd lsm idx m fuel s0 = some out →
      out.avg = (out.batch.map (fun s => s.reward)).sum
          / ((out.batch.countP (fun s => s.is_done) : ℕ) : ℚ) := by
  intro σ E pol fwd lsm idx m fuel s0 out h
  cases hrol : rollout E pol m fuel s0 with
  | none => rw [runEpoch, hrol] at h; exact absurd h (by simp)
  | some steps =>
    rw [runEpoch, hrol] at h
    have hout := (Option.some.inj h).symm
    subst hout
    show sumRawOf steps / ((episodesOf steps : ℤ) : ℚ)
      = (steps.map (fun s => s.reward)).sum
          / ((steps.countP (fun s => s.is_done) : ℕ) : ℚ)
    rw [episodesOf_eq_countP]
    norm_cast

/-- C9 (amended): within every epoch the driver collects the batch, then
reports the per epoch statistics, then computes reward-to-go, then performs
the update; the report is emitted right after collection, before the
reward-to-go computation and before the update of that epoch. -/
theorem c9_amended_phase_order :
    ∀ (σ : Type) (E : GymEnv σ) (pol : List ℚ → ℤ)
      (fwd lsm : List ℚ → List ℚ) (idx m fuel : Nat) (s0 : σ)
      (out : EpochOut),
      runEpoch E pol fwd lsm idx m fuel s0 = some out →
      out.events = [Ev.collect, Ev.report, Ev.rtg, Ev.update] := by
  intro σ E pol fwd lsm idx m fuel s0 out h
  cases hrol : rollout E pol m fuel s0 with
  | none => rw [runEpoch, hrol] at h; exact absurd h (by simp)
  | some steps =>
    rw [runEpoch, hrol] at h
    have hout := (Option.some.inj h).symm
    subst hout
    rfl

/-- The epoch output of the concrete one step environment, used as a
witness input. -/
def outC : EpochOut :=
  (runEpoch cEnv cPol cFwd cLsm 0 0 1 ()).getD default

theorem runEpoch_outC : runEpoch cEnv cPol cFwd cLsm 0 0 1 () = some outC := rfl

theorem c4_witness :
    outC.avg = (outC.batch.map (fun s => s.reward)).sum
        / ((outC.batch.countP (fun s => s.is_done) : ℕ) : ℚ) :=
  c4_avg_reward_formula Unit cEnv cPol cFwd cLsm 0 0 1 () outC runEpoch_outC

theorem c9_witness :
    outC.events = [Ev.collect, Ev.report, Ev.rtg, Ev.update] :=
  c9_amended_phase_order Unit cEnv cPol cFwd cLsm 0 0 1 () outC runEpoch_outC

/-- C9 counterexample: on a concrete run the emitted phase trace is collect,
report, rtg, update: the statistics line is printed before the reward-to-go
computation and before the optimizer update of its epoch, so the report is
emitted before the update, contradicting the claimed order. -/
theorem c9_counterexample :
    (runEpoch cEnv cPol cFwd cLsm 0 0 1 ()).map EpochOut.events
        = some [Ev.collect, Ev.report, Ev.rtg, Ev.update] ∧
      [Ev.collect, Ev.report, Ev.rtg, Ev.update].getD 1 Ev.collect = Ev.report ∧
      [Ev.collect, Ev.report, Ev.rtg, Ev.update].getD 3 Ev.collect = Ev.update ∧
      Ev.update ∉ [Ev.collect, Ev.report] := by
  refine ⟨?_, rfl, rfl, by decide⟩
  rw [runEpoch_outC]
  rfl
